import Mathlib

/-!
Verification of the graphs repository (spectral graph embeddings).

Shallow embedding of the code in src/graphs: the Graph base class
(src/graphs/base/base.py) is modelled as an adjacency matrix over ℚ together
with its weightedness and directedness flags; the embedding routines of
src/graphs/embed.py are translated operation by operation.  External numeric
collaborators (scipy eigensolvers, sklearn KernelPCA, the analysis module)
are passed in as explicit function arguments where a routine consumes them.
-/

namespace Graphs

open Matrix

/-- A graph as seen through its uniform numeric contract: a V by V adjacency
matrix (zero entries mean no edge) plus the is_weighted and is_directed flags
of the base class in src/graphs/base/base.py. -/
structure Graph (V : ℕ) where
  adj : Matrix (Fin V) (Fin V) ℚ
  weighted : Bool
  directed : Bool

/-- Sum of a square matrix along a numpy axis: axis 1 sums each row, any other
axis value sums each column.  Mirrors adj.sum with the axis computed in
Graph.degree (src/graphs/base/base.py lines 54-63). -/
def sumAxis {V : ℕ} (A : Matrix (Fin V) (Fin V) ℚ) (axis : ℕ) : Fin V → ℚ :=
  if axis = 1 then fun i => ∑ j, A i j else fun j => ∑ i, A i j

/-- Count of nonzero entries of a square matrix along a numpy axis, as a
rational.  Mirrors the expression summing adj compared with zero along the
chosen axis in Graph.degree. -/
def countNonzeroAxis {V : ℕ} (A : Matrix (Fin V) (Fin V) ℚ) (axis : ℕ) : Fin V → ℚ :=
  if axis = 1 then fun i => ((Finset.univ.filter fun j => A i j ≠ 0).card : ℚ)
  else fun j => ((Finset.univ.filter fun i => A i j ≠ 0).card : ℚ)

/-- The kind string selecting out-degrees. -/
def outKind : String := "out"

/-- The kind string selecting in-degrees. -/
def inKind : String := "in"

/-- Graph.degree from src/graphs/base/base.py: axis is 1 when kind is the out
kind and 0 otherwise; when unweighted is requested and the graph is weighted,
nonzero entries are counted instead of summed. -/
def Graph.degree {V : ℕ} (G : Graph V) (kind : String) (unweighted : Bool) : Fin V → ℚ :=
  let axis : ℕ := if kind = outKind then 1 else 0
  if unweighted && G.weighted then countNonzeroAxis G.adj axis
  else sumAxis G.adj axis

/-- Graph.adj_list from src/graphs/base/base.py: for each row of the matrix
view, the (ascending) list of column indices holding nonzero entries.  The
Python generator re-derives this from self.matrix() on every call; the pure
function here is that per-call sequence. -/
def Graph.adj_list {V : ℕ} (G : Graph V) : List (List (Fin V)) :=
  (List.finRange V).map fun i => (List.finRange V).filter fun j => decide (G.adj i j ≠ 0)

/-- C5: degree returns row sums of the adjacency matrix for kind out and column
sums for kind in; with unweighted set on a weighted graph it returns the count
of nonzero entries along that axis; with unweighted set on an unweighted graph
the flag is ignored and the plain sum is returned. -/
theorem degree_spec (V : ℕ) (A : Matrix (Fin V) (Fin V) ℚ) (w dflag : Bool) (kind : String) :
    ((Graph.mk A w dflag).degree outKind false = fun i => ∑ j, A i j)
    ∧ ((Graph.mk A w dflag).degree inKind false = fun j => ∑ i, A i j)
    ∧ ((Graph.mk A true dflag).degree outKind true
        = fun i => ((Finset.univ.filter fun j => A i j ≠ 0).card : ℚ))
    ∧ ((Graph.mk A true dflag).degree inKind true
        = fun j => ((Finset.univ.filter fun i => A i j ≠ 0).card : ℚ))
    ∧ ((Graph.mk A false dflag).degree kind true = (Graph.mk A false dflag).degree kind false) := by
  refine ⟨?_, ?_, ?_, ?_, ?_⟩ <;>
    simp [Graph.degree, sumAxis, countNonzeroAxis, outKind, inKind]

/-- C8: adj_list produces exactly V neighbor lists, the i-th containing
precisely the indices of the nonzero entries in row i of the adjacency matrix,
and the sequence is a function of the matrix view alone (so every traversal,
re-derived from the matrix, yields the same lists regardless of the other
graph state). -/
theorem adj_list_spec (V : ℕ) (A : Matrix (Fin V) (Fin V) ℚ) (w d w2 d2 : Bool) :
    ((Graph.mk A w d).adj_list).length = V
    ∧ (∀ i j : Fin V, j ∈ ((Graph.mk A w d).adj_list).getD i.val [] ↔ A i j ≠ 0)
    ∧ (Graph.mk A w d).adj_list = (Graph.mk A w2 d2).adj_list := by
  refine ⟨by simp [Graph.adj_list], ?_, rfl⟩
  intro i j
  have hget : ((Graph.mk A w d).adj_list).getD i.val []
      = (List.finRange V).filter fun j => decide (A i j ≠ 0) := by
    rw [Graph.adj_list, List.getD_eq_getElem?_getD, List.getElem?_map]
    simp [List.getElem?_eq_getElem, List.getElem_finRange]
  rw [hget]
  simp [List.mem_filter]

/-- Comparison of eigenpairs by eigenvalue, the order used by the argsort over
vals in lapeig (src/graphs/embed.py line 69).  The second component is the
eigenvector, kept abstract. -/
abbrev valLE {α : Type} (a b : ℚ × α) : Prop := a.1 ≤ b.1

instance decValLE {α : Type} : DecidableRel (@valLE α) :=
  fun a b => inferInstanceAs (Decidable (a.1 ≤ b.1))

instance totalValLE {α : Type} : IsTotal (ℚ × α) valLE :=
  ⟨fun a b => le_total a.1 b.1⟩

instance transValLE {α : Type} : IsTrans (ℚ × α) valLE :=
  ⟨fun _ _ _ h1 h2 => le_trans h1 h2⟩

/-- Post-processing of the solver output in lapeig (src/graphs/embed.py lines
68-80): sort the eigenpairs ascending by eigenvalue, compute the searchsorted
index i of val_thresh (the number of eigenvalues strictly below the threshold
in the sorted order), and slice positions i to i + num_vecs, where num_vecs
defaults to everything remaining when it is None. -/
def lapeig_post {α : Type} (pairs : List (ℚ × α)) (num_vecs : Option ℕ) (val_thresh : ℚ) :
    List (ℚ × α) :=
  let s := List.insertionSort valLE pairs
  let i := s.countP fun p => decide (p.1 < val_thresh)
  let nv := match num_vecs with
    | none => s.length - i
    | some n => n
  (s.drop i).take nv

/-- Dropping the searchsorted prefix of a sorted eigenpair list is the same as
filtering for eigenvalues at or above the threshold. -/
theorem sorted_drop_countP {α : Type} (c : ℚ) :
    ∀ l : List (ℚ × α), l.Pairwise valLE →
      l.drop (l.countP fun p => decide (p.1 < c)) = l.filter fun p => decide (c ≤ p.1)
  | [], _ => rfl
  | x :: l, h => by
    rcases List.pairwise_cons.mp h with ⟨hx, hl⟩
    by_cases hc : x.1 < c
    · rw [List.countP_cons_of_pos _ _ (by simpa using hc)]
      rw [List.drop_succ_cons]
      rw [List.filter_cons_of_neg (by simpa using not_le.mpr hc)]
      exact sorted_drop_countP c l hl
    · have hcx : c ≤ x.1 := not_lt.mp hc
      have hall : ∀ y ∈ l, c ≤ y.1 := fun y hy => le_trans hcx (hx y hy)
      rw [List.countP_cons_of_neg _ _ (by simpa using hc)]
      have hz : l.countP (fun p => decide (p.1 < c)) = 0 := by
        rw [List.countP_eq_zero]
        intro y hy
        simpa using not_lt.mpr (hall y hy)
      rw [hz]
      rw [List.filter_cons_of_pos (by simpa using hcx)]
      rw [List.filter_eq_self.mpr fun y hy => by simpa using hall y hy]
      rfl

/-- The slice returned by lapeig_post is sorted, every retained eigenvalue
meets the threshold, and with num_vecs unset it is exactly the sorted list
filtered to eigenvalues at or above the threshold. -/
theorem lapeig_post_props {α : Type} (pairs : List (ℚ × α))
    (num_vecs : Option ℕ) (val_thresh : ℚ) :
    ((lapeig_post pairs num_vecs val_thresh).map Prod.fst).Sorted (· ≤ ·)
    ∧ (∀ p ∈ lapeig_post pairs num_vecs val_thresh, val_thresh ≤ p.1)
    ∧ lapeig_post pairs none val_thresh
        = (List.insertionSort valLE pairs).filter fun p => decide (val_thresh ≤ p.1) := by
  have hs : (List.insertionSort valLE pairs).Pairwise valLE :=
    List.sorted_insertionSort valLE pairs
  have hdropfilter := sorted_drop_countP val_thresh (List.insertionSort valLE pairs) hs
  have hsub : List.Sublist (lapeig_post pairs num_vecs val_thresh)
      ((List.insertionSort valLE pairs).drop
        ((List.insertionSort valLE pairs).countP fun p => decide (p.1 < val_thresh))) := by
    unfold lapeig_post
    exact List.take_sublist _ _
  refine ⟨?_, ?_, ?_⟩
  · have hp : (lapeig_post pairs num_vecs val_thresh).Pairwise valLE :=
      List.Pairwise.sublist (hsub.trans (List.drop_sublist _ _)) hs
    exact (List.pairwise_map).mpr hp
  · intro p hp
    have : p ∈ (List.insertionSort valLE pairs).filter fun p => decide (val_thresh ≤ p.1) := by
      rw [← hdropfilter]
      exact hsub.mem hp
    simpa using List.of_mem_filter this
  · unfold lapeig_post
    rw [hdropfilter.symm]
    have hlen : ((List.insertionSort valLE pairs).drop
        ((List.insertionSort valLE pairs).countP fun p => decide (p.1 < val_thresh))).length
        = (List.insertionSort valLE pairs).length
          - (List.insertionSort valLE pairs).countP fun p => decide (p.1 < val_thresh) :=
      List.length_drop _ _
    exact List.take_of_length_le (le_of_eq hlen)

/-- Number of eigenpairs requested from the sparse solver in lapeig
(src/graphs/embed.py line 59): the matrix dimension minus one when num_vecs is
None, and num_vecs + 1 otherwise. -/
def lapeig_k (dim : ℕ) (num_vecs : Option ℕ) : ℕ :=
  match num_vecs with
  | none => dim - 1
  | some n => n + 1

/-- Inputs of one lapeig call.  The scipy solvers are external: the sparse
eigsh call is a function from the requested eigenpair count to an optional
eigenpair list (None models the except branch), and the dense eigh result is
an eigenpair list. -/
structure LapeigInput (α : Type) where
  dim : ℕ
  sparse : Bool
  sparseSolver : ℕ → Option (List (ℚ × α))
  denseSolver : List (ℚ × α)

/-- The lapeig routine of src/graphs/embed.py lines 56-80: on a sparse input,
try the sparse solver with lapeig_k eigenpairs and fall back to the dense
solver on failure (recording the emitted warning in the boolean component);
on a dense input, use the dense solver directly; post-process with
lapeig_post either way. -/
def lapeig {α : Type} (inp : LapeigInput α) (num_vecs : Option ℕ) (val_thresh : ℚ) :
    List (ℚ × α) × Bool :=
  if inp.sparse then
    match inp.sparseSolver (lapeig_k inp.dim num_vecs) with
    | some pairs => (lapeig_post pairs num_vecs val_thresh, false)
    | none => (lapeig_post inp.denseSolver num_vecs val_thresh, true)
  else (lapeig_post inp.denseSolver num_vecs val_thresh, false)

/-- The eigenpair list a lapeig call actually consumes, following the branch
structure of src/graphs/embed.py lines 57-67: the sparse solver output when
the input is sparse and that solver succeeds, and the dense solver output
otherwise (dense input, or sparse solve failure and fallback). -/
def lapeig_solver_output {α : Type} (inp : LapeigInput α) (num_vecs : Option ℕ) :
    List (ℚ × α) :=
  if inp.sparse then
    match inp.sparseSolver (lapeig_k inp.dim num_vecs) with
    | some pairs => pairs
    | none => inp.denseSolver
  else inp.denseSolver

/-- Every path of lapeig returns the lapeig_post slice of the solver output
that path consumed. -/
theorem lapeig_uses_solver_output {α : Type} (inp : LapeigInput α)
    (num_vecs : Option ℕ) (val_thresh : ℚ) :
    (lapeig inp num_vecs val_thresh).1
      = lapeig_post (lapeig_solver_output inp num_vecs) num_vecs val_thresh := by
  unfold lapeig lapeig_solver_output
  by_cases hsp : inp.sparse
  · simp only [hsp, if_true]
    cases h : inp.sparseSolver (lapeig_k inp.dim num_vecs) with
    | some pairs => rfl
    | none => rfl
  · simp only [hsp, if_false]
    rfl

/-- laplacian_eigenmaps (src/graphs/embed.py lines 22-24): builds the
normalized Laplacian of the graph through the external analysis module (here
an explicit argument mapping the graph to the eigensolver call data) and
delegates to the shared lapeig routine. -/
def laplacian_eigenmaps {V : ℕ} {α : Type} (G : Graph V)
    (normalizedLaplacian : Graph V → LapeigInput α)
    (num_vecs : Option ℕ) (val_thresh : ℚ) : List (ℚ × α) × Bool :=
  lapeig (normalizedLaplacian G) num_vecs val_thresh

/-- C1: the embedding returned by laplacian_eigenmaps via lapeig consists of
eigenpairs ordered by ascending eigenvalue, every retained eigenvalue is at
least val_thresh (so the retained eigenvalue sequence is non-decreasing), the
result is always the lapeig_post slice of the eigenpairs the solver path
actually produced, and when num_vecs is unset the result is exactly those
solver eigenpairs at or above the threshold, in ascending order. -/
theorem laplacian_eigenmaps_ordered_thresholded {V : ℕ} {α : Type} (G : Graph V)
    (normalizedLaplacian : Graph V → LapeigInput α)
    (num_vecs : Option ℕ) (val_thresh : ℚ) :
    (((laplacian_eigenmaps G normalizedLaplacian num_vecs val_thresh).1.map Prod.fst).Sorted
        (· ≤ ·))
    ∧ (∀ p ∈ (laplacian_eigenmaps G normalizedLaplacian num_vecs val_thresh).1,
        val_thresh ≤ p.1)
    ∧ (laplacian_eigenmaps G normalizedLaplacian num_vecs val_thresh).1
        = lapeig_post (lapeig_solver_output (normalizedLaplacian G) num_vecs)
            num_vecs val_thresh
    ∧ (laplacian_eigenmaps G normalizedLaplacian none val_thresh).1
        = (List.insertionSort valLE (lapeig_solver_output (normalizedLaplacian G) none)).filter
            fun p => decide (val_thresh ≤ p.1) := by
  have hp := lapeig_uses_solver_output (normalizedLaplacian G) num_vecs val_thresh
  have hp0 := lapeig_uses_solver_output (normalizedLaplacian G) none val_thresh
  have h := lapeig_post_props (lapeig_solver_output (normalizedLaplacian G) num_vecs)
    num_vecs val_thresh
  have h0 := lapeig_post_props (lapeig_solver_output (normalizedLaplacian G) none)
    none val_thresh
  refine ⟨?_, ?_, ?_, ?_⟩
  · rw [laplacian_eigenmaps, hp]
    exact h.1
  · rw [laplacian_eigenmaps, hp]
    exact h.2.1
  · rw [laplacian_eigenmaps, hp]
  · rw [laplacian_eigenmaps, hp0]
    exact h0.2.2

/-- Concrete lapeig call on a sparse symmetric input whose sparse solve
succeeds: num_vecs = 2, so eigsh is asked for 3 eigenpairs, and it returns
eigenvalues 0, 0, 7 (two of them below the threshold 1, as happens for the
normalized Laplacian of a graph with two connected components and a small
threshold).  Eigenvectors are tagged 0, 1, 2. -/
def twoComponentCase : LapeigInput ℕ :=
  LapeigInput.mk 3 true
    (fun k => if k = 3 then some [((0 : ℚ), 0), ((0 : ℚ), 1), ((7 : ℚ), 2)] else none) []

/-- C2: evaluation at the failing input: the sparse path succeeds (no warning
is emitted, second component false), yet the returned embedding has exactly
one column even though num_vecs = 2 was requested — the threshold slice
silently truncates, contradicting the wrong-count guarantee. -/
theorem lapeig_wrong_column_count :
    lapeig twoComponentCase (some 2) 1 = ([((7 : ℚ), 2)], false)
    ∧ (lapeig twoComponentCase (some 2) 1).1.length = 1 ∧ 1 ≠ 2 := by decide

/-- numpy linspace: num evenly spaced samples from a to b inclusive, the j-th
being a + (b - a) * j / (num - 1). -/
def linspace {K : Type} [Field K] (a b : K) (num : ℕ) : List K :=
  (List.range num).map fun j : ℕ => a + (b - a) * (j : K) / ((num : K) - 1)

/-- circular_layout (src/graphs/embed.py lines 83-86): take the first n angles
of linspace 0 2pi (n+1) and place each vertex at cosine and sine of its
angle. -/
noncomputable def circular_layout (n : ℕ) : List (ℝ × ℝ) :=
  ((linspace 0 (2 * Real.pi) (n + 1)).take n).map fun t => (Real.cos t, Real.sin t)

/-- C3: circular_layout on n vertices, n at least 1, returns n coordinate
rows, row i being the point at angle 2 pi i / n on the unit circle, and
vertex 0 sits at the point one-zero. -/
theorem circular_layout_spec (n : ℕ) (hn : 1 ≤ n) :
    (circular_layout n).length = n
    ∧ circular_layout n
        = (List.range n).map
            (fun i : ℕ => (Real.cos (2 * Real.pi * i / n), Real.sin (2 * Real.pi * i / n)))
    ∧ (circular_layout n).getD 0 (0, 0) = (1, 0) := by
  have hmain : circular_layout n
      = (List.range n).map
          (fun i : ℕ => (Real.cos (2 * Real.pi * i / n), Real.sin (2 * Real.pi * i / n))) := by
    unfold circular_layout linspace
    rw [← List.map_take, List.take_range, min_eq_left (Nat.le_succ n), List.map_map]
    apply List.map_congr_left
    intro j hj
    have hc : ((n + 1 : ℕ) : ℝ) - 1 = (n : ℝ) := by push_cast; ring
    simp only [Function.comp, hc]
    norm_num
  refine ⟨?_, hmain, ?_⟩
  · rw [hmain]; simp
  · rw [hmain]
    have h0 : 0 < n := hn
    rw [List.getD_eq_getElem?_getD, List.getElem?_map]
    rw [List.getElem?_range h0]
    simp

/-- Witness for C3 at n = 3. -/
theorem circular_layout_spec_witness :
    (circular_layout 3).length = 3
    ∧ circular_layout 3
        = (List.range 3).map
            (fun i : ℕ => (Real.cos (2 * Real.pi * i / ((3 : ℕ) : ℝ)),
              Real.sin (2 * Real.pi * i / ((3 : ℕ) : ℝ))))
    ∧ (circular_layout 3).getD 0 (0, 0) = (1, 0) :=
  circular_layout_spec 3 (by norm_num)

/-- The cooling schedule of spring_layout (src/graphs/embed.py line 113):
linspace from initial_temp down to 0 with iterations + 2 sample points, with
the final two entries sliced off. -/
def cooling_scheme (initial_temp : ℚ) (iterations : ℕ) : List ℚ :=
  (linspace initial_temp 0 (iterations + 2)).take
    ((linspace initial_temp 0 (iterations + 2)).length - 2)

/-- The default spring constant of spring_layout (src/graphs/embed.py lines
106-108): the number of vertices raised to the power minus one half. -/
noncomputable def spring_constant_default (numVertices : ℕ) : ℝ :=
  (numVertices : ℝ) ^ (-(1 / 2) : ℝ)

/-- The position-update loop of spring_layout: one update per cooling-scheme
temperature, folded over the schedule in order. -/
def spring_layout_positions {σ : Type} (update : ℚ → σ → σ) (initial_temp : ℚ)
    (iterations : ℕ) (X0 : σ) : σ :=
  (cooling_scheme initial_temp iterations).foldl (fun X t => update t X) X0

/-- C6 counterexample: with iterations = 1 and initial_temp = 1 the cooling
schedule is the single temperature 1, so the final position-update step runs
at temperature 1, not at temperature 0 as the claim states. -/
theorem cooling_scheme_final_temp_not_zero :
    cooling_scheme 1 1 = [1] ∧ (1 : ℚ) ≠ 0 := by
  constructor
  · unfold cooling_scheme linspace
    norm_num [List.range_succ]
  · norm_num

/-- Counting helper: folding a unit increment over a list counts its
elements. -/
theorem foldl_count (l : List ℚ) : ∀ k : ℕ, l.foldl (fun n _ => n + 1) k = k + l.length := by
  induction l with
  | nil => intro k; simp
  | cons x l ih => intro k; simp [ih, Nat.add_assoc, Nat.add_comm 1]

/-- C6 amended: spring_layout performs exactly iterations position-update
steps; their temperatures decay linearly, the j-th step using temperature
initial_temp * (iterations + 1 - j) / (iterations + 1), so the schedule
starts at initial_temp and the final step uses temperature
2 * initial_temp / (iterations + 1), never reaching 0; when spring_constant
is unset it defaults to 1 / sqrt of the vertex count. -/
theorem spring_layout_schedule_spec (T0 : ℚ) (iterations numVertices : ℕ)
    (h : 1 ≤ iterations) :
    (cooling_scheme T0 iterations).length = iterations
    ∧ spring_layout_positions (fun (_ : ℚ) (n : ℕ) => n + 1) T0 iterations 0 = iterations
    ∧ cooling_scheme T0 iterations
        = (List.range iterations).map
            (fun j : ℕ => T0 * (((iterations : ℚ) + 1 - j) / ((iterations : ℚ) + 1)))
    ∧ (cooling_scheme T0 iterations).getLast?
        = some (2 * T0 / ((iterations : ℚ) + 1))
    ∧ spring_constant_default numVertices = 1 / Real.sqrt numVertices := by
  have hlen : (linspace T0 0 (iterations + 2)).length = iterations + 2 := by
    unfold linspace; simp
  have hne : ((iterations : ℚ) + 1) ≠ 0 := by positivity
  have hc : ((iterations + 2 : ℕ) : ℚ) - 1 = (iterations : ℚ) + 1 := by push_cast; ring
  have hmain : cooling_scheme T0 iterations
      = (List.range iterations).map
          (fun j : ℕ => T0 * (((iterations : ℚ) + 1 - j) / ((iterations : ℚ) + 1))) := by
    unfold cooling_scheme
    rw [hlen]
    have h2 : iterations + 2 - 2 = iterations := by omega
    rw [h2]
    unfold linspace
    rw [← List.map_take, List.take_range, min_eq_left (by omega), List.map_congr_left]
    intro j hj
    rw [hc]
    field_simp
    ring
  have hcount : spring_layout_positions (fun (_ : ℚ) (n : ℕ) => n + 1) T0 iterations 0
      = iterations := by
    unfold spring_layout_positions
    rw [foldl_count, hmain]
    simp
  have hlast : (cooling_scheme T0 iterations).getLast?
      = some (2 * T0 / ((iterations : ℚ) + 1)) := by
    rw [hmain, List.getLast?_eq_getElem?]
    have hll : ((List.range iterations).map
        (fun j : ℕ => T0 * (((iterations : ℚ) + 1 - j) / ((iterations : ℚ) + 1)))).length
        = iterations := by simp
    rw [hll, List.getElem?_map, List.getElem?_range (by omega : iterations - 1 < iterations)]
    have hcast : ((iterations - 1 : ℕ) : ℚ) = (iterations : ℚ) - 1 := by
      rw [Nat.cast_sub h, Nat.cast_one]
    have hval : T0 * (((iterations : ℚ) + 1 - ((iterations - 1 : ℕ) : ℚ))
        / ((iterations : ℚ) + 1)) = 2 * T0 / ((iterations : ℚ) + 1) := by
      rw [hcast]
      field_simp
      ring
    simp [hval]
  refine ⟨by rw [hmain]; simp, hcount, hmain, hlast, ?_⟩
  unfold spring_constant_default
  rw [Real.rpow_neg (Nat.cast_nonneg numVertices), Real.sqrt_eq_rpow]
  exact (one_div _).symm

/-- Witness for the amended C6 at initial_temp 1, one iteration, four
vertices. -/
theorem spring_layout_schedule_spec_witness :
    (cooling_scheme 1 1).length = 1
    ∧ spring_layout_positions (fun (_ : ℚ) (n : ℕ) => n + 1) 1 1 0 = 1
    ∧ cooling_scheme 1 1
        = (List.range 1).map
            (fun j : ℕ => 1 * ((((1 : ℕ) : ℚ) + 1 - j) / (((1 : ℕ) : ℚ) + 1)))
    ∧ (cooling_scheme 1 1).getLast? = some (2 * 1 / (((1 : ℕ) : ℚ) + 1))
    ∧ spring_constant_default 4 = 1 / Real.sqrt ((4 : ℕ) : ℝ) :=
  spring_layout_schedule_spec 1 1 4 (by norm_num)

/-- The T matrix of locality_preserving_projections on the branch taken when
there are at least as many points as dimensions (src/graphs/embed.py line 34):
Fplus times the product of X transpose, L and X, times Fplus transpose. -/
def lppT_points_ge_dims {n d : ℕ} (Fplus : Matrix (Fin d) (Fin d) ℚ)
    (X : Matrix (Fin n) (Fin d) ℚ) (L : Matrix (Fin n) (Fin n) ℚ) :
    Matrix (Fin d) (Fin d) ℚ :=
  Fplus * (Xᵀ * L * X) * Fplusᵀ

/-- The T matrix of locality_preserving_projections on the branch taken when
there are fewer points than dimensions (src/graphs/embed.py line 36): the
product of Fplus and X transpose, times L, times the product of X and Fplus
transpose. -/
def lppT_points_lt_dims {n d : ℕ} (Fplus : Matrix (Fin d) (Fin d) ℚ)
    (X : Matrix (Fin n) (Fin d) ℚ) (L : Matrix (Fin n) (Fin n) ℚ) :
    Matrix (Fin d) (Fin d) ℚ :=
  Fplus * Xᵀ * L * (X * Fplusᵀ)

/-- The T matrix of locality_preserving_projections with the branch selection
of src/graphs/embed.py lines 33-36: the first multiplication order when the
point count n is at least the dimension count d, the second otherwise. -/
def lppT {n d : ℕ} (Fplus : Matrix (Fin d) (Fin d) ℚ)
    (X : Matrix (Fin n) (Fin d) ℚ) (L : Matrix (Fin n) (Fin n) ℚ) :
    Matrix (Fin d) (Fin d) ℚ :=
  if d ≤ n then lppT_points_ge_dims Fplus X L else lppT_points_lt_dims Fplus X L

/-- C4: the two multiplication-order branches of
locality_preserving_projections produce the same matrix T, so the branch
choice never changes the returned projection. -/
theorem lpp_branches_agree (n d : ℕ) (Fplus : Matrix (Fin d) (Fin d) ℚ)
    (X : Matrix (Fin n) (Fin d) ℚ) (L : Matrix (Fin n) (Fin n) ℚ) :
    lppT_points_ge_dims Fplus X L = lppT_points_lt_dims Fplus X L
    ∧ lppT Fplus X L = lppT_points_lt_dims Fplus X L := by
  have hT : lppT_points_ge_dims Fplus X L = lppT_points_lt_dims Fplus X L := by
    unfold lppT_points_ge_dims lppT_points_lt_dims
    simp only [Matrix.mul_assoc]
  refine ⟨hT, ?_⟩
  unfold lppT
  split
  · exact hT
  · rfl

/-- Error message modelling the failed assertion when neither neighborhood
parameter is supplied. -/
def assertionErrorMsg : String := "AssertionError: neither k nor epsilon was supplied"

/-- Modelled from the spec: the construction entry point neighbor_graph lives
in src/graphs/construction/neighbors.py, which is absent from src (only its
test file is present).  Section 4.2 of the spec requires that it must fail,
reported as a precondition violation, if neither k nor epsilon is supplied,
and otherwise build a graph over the input points or precomputed distance
matrix; the successful construction itself is abstracted by the build
argument, since only the precondition behavior is at issue. -/
def neighbor_graph {N : ℕ} (dists : Matrix (Fin N) (Fin N) ℚ)
    (k : Option ℕ) (epsilon : Option ℚ)
    (build : Matrix (Fin N) (Fin N) ℚ → Option ℕ → Option ℚ → Graph N) :
    Except String (Graph N) :=
  if k.isNone && epsilon.isNone then Except.error assertionErrorMsg
  else Except.ok (build dists k epsilon)

/-- C7: neighbor_graph fails immediately with a precondition-violation error
whenever neither k nor epsilon is supplied, for every input distance matrix
and every construction backend. -/
theorem neighbor_graph_requires_k_or_epsilon (N : ℕ)
    (dists : Matrix (Fin N) (Fin N) ℚ)
    (build : Matrix (Fin N) (Fin N) ℚ → Option ℕ → Option ℚ → Graph N) :
    neighbor_graph dists none none build = Except.error assertionErrorMsg := rfl

/-- isomap (src/graphs/embed.py lines 16-19): conjoin the directed argument
with the directedness flag of the graph, square the resulting shortest-path
matrix entrywise and scale by minus one half, then hand the kernel to
KernelPCA.  The shortest-path routine of the external analysis module and the
sklearn KernelPCA transform are explicit arguments. -/
def isomap {V : ℕ} {α : Type} (G : Graph V)
    (shortestPath : Graph V → Bool → Matrix (Fin V) (Fin V) ℚ)
    (kernelPCA : Option ℕ → Matrix (Fin V) (Fin V) ℚ → α)
    (num_vecs : Option ℕ) (directed : Bool) : α :=
  let directedEff := directed && G.directed
  let W := (-(1 : ℚ) / 2) • ((shortestPath G directedEff).map fun x => x ^ 2)
  kernelPCA num_vecs W

/-- C9: on an undirected graph, isomap with directed set to true computes the
same shortest-path matrix, and hence the same embedding, as with directed set
to false: the argument is conjoined with the directedness flag of the
graph. -/
theorem isomap_directed_flag_conjoined {V : ℕ} {α : Type} (G : Graph V)
    (shortestPath : Graph V → Bool → Matrix (Fin V) (Fin V) ℚ)
    (kernelPCA : Option ℕ → Matrix (Fin V) (Fin V) ℚ → α) (num_vecs : Option ℕ)
    (h : G.directed = false) :
    shortestPath G (true && G.directed) = shortestPath G (false && G.directed)
    ∧ isomap G shortestPath kernelPCA num_vecs true
        = isomap G shortestPath kernelPCA num_vecs false := by
  constructor
  · rw [h]
    rfl
  · unfold isomap
    rw [h]
    rfl

/-- Demo graph for the C9 witness: one vertex, no edges, undirected. -/
def isomapDemoGraph : Graph 1 := Graph.mk 0 false false

/-- Demo shortest-path backend for the C9 witness. -/
def isomapDemoSP : Graph 1 → Bool → Matrix (Fin 1) (Fin 1) ℚ := fun _ _ => 0

/-- Demo KernelPCA backend for the C9 witness. -/
def isomapDemoKPCA : Option ℕ → Matrix (Fin 1) (Fin 1) ℚ → Matrix (Fin 1) (Fin 1) ℚ :=
  fun _ W => W

/-- Witness for C9 on the one-vertex undirected demo graph. -/
theorem isomap_directed_flag_conjoined_witness :
    isomapDemoSP isomapDemoGraph (true && isomapDemoGraph.directed)
      = isomapDemoSP isomapDemoGraph (false && isomapDemoGraph.directed)
    ∧ isomap isomapDemoGraph isomapDemoSP isomapDemoKPCA none true
        = isomap isomapDemoGraph isomapDemoSP isomapDemoKPCA none false :=
  isomap_directed_flag_conjoined isomapDemoGraph isomapDemoSP isomapDemoKPCA none rfl

/-- Error message modelling the Python TypeError raised when the eigenvalue
index range is formed from a missing num_vecs. -/
def typeErrorMsg : String := "TypeError: unsupported operand types for subtraction: NoneType and int"

/-- The eigvals index range of the dense eigh call in laplacian_pca
(src/graphs/embed.py line 52): the pair of 0 and num_vecs - 1, whose
construction fails when num_vecs is None because None minus an integer is a
TypeError. -/
def eig_range (num_vecs : Option ℕ) : Except String (ℕ × ℕ) :=
  match num_vecs with
  | none => Except.error typeErrorMsg
  | some n => Except.ok (0, n - 1)

/-- laplacian_pca (src/graphs/embed.py lines 41-53): blend the rescaled PCA
reconstruction kernel and the rescaled normalized Laplacian by beta, then
eigendecompose the blend over the index range of eig_range and reconstruct
the coordinates.  The largest-magnitude-eigenvalue and dense range
eigensolvers of scipy are explicit arguments, and the normalized Laplacian of
the external analysis module is passed in directly. -/
def laplacian_pca {V d : ℕ} (X : Matrix (Fin V) (Fin d) ℚ)
    (L : Matrix (Fin V) (Fin V) ℚ) (num_vecs : Option ℕ) (beta : ℚ)
    (lmEig : Matrix (Fin V) (Fin V) ℚ → ℚ)
    (eighRange : Matrix (Fin V) (Fin V) ℚ → ℕ × ℕ → Matrix (Fin V) (Fin V) ℚ) :
    Except String (Matrix (Fin V) (Fin d) ℚ) :=
  let kernel := X * Xᵀ
  let kernelScaled := (lmEig kernel)⁻¹ • kernel
  let Lscaled := (lmEig L)⁻¹ • L
  let W := (1 - beta) • ((1 : Matrix (Fin V) (Fin V) ℚ) - kernelScaled) + beta • Lscaled
  match eig_range num_vecs with
  | Except.error e => Except.error e
  | Except.ok r =>
    let vecs := eighRange W r
    Except.ok ((Xᵀ * vecs * vecsᵀ)ᵀ)

/-- C10: laplacian_pca cannot be called with num_vecs left at its default of
None: for every graph Laplacian and coordinate input the call fails with the
TypeError from forming the eigenvalue index range, before any result is
produced. -/
theorem laplacian_pca_requires_num_vecs (V d : ℕ) (X : Matrix (Fin V) (Fin d) ℚ)
    (L : Matrix (Fin V) (Fin V) ℚ) (beta : ℚ)
    (lmEig : Matrix (Fin V) (Fin V) ℚ → ℚ)
    (eighRange : Matrix (Fin V) (Fin V) ℚ → ℕ × ℕ → Matrix (Fin V) (Fin V) ℚ) :
    laplacian_pca X L none beta lmEig eighRange = Except.error typeErrorMsg := rfl

end Graphs
